import Mathlib

/-! Shallow embedding of `src/auto-mpg/ingest-data.py` (the `IngestData` flow):
the parsing loop and dataframe construction of `process_dataset`, the column
coercion loop, the partition-path construction of `save_dataset`, and the
filename and directory handling of `download_file`. -/

namespace IngestData

/-- Python whitespace, as recognised by `str.split()` with no argument and by
`float()` when stripping its input. -/
def isPyWs (c : Char) : Bool :=
  c == ' ' || c == '\t' || c == '\n' || c == '\r' || c == '\x0b' || c == '\x0c'

/-- Python `s.replace(c, "")` for a one-character needle: drops every occurrence
of `c` anywhere in `s`. -/
def removeChar (c : Char) (s : String) : String :=
  String.mk (s.data.filter (fun x => x != c))

/-- Python `str.split(sep)` for a one-character separator, at the character-list
level: cuts at every position where `p` holds and keeps empty segments. -/
def splitOnPred (p : Char → Bool) : List Char → List (List Char)
  | [] => [[]]
  | x :: xs =>
    if p x then [] :: splitOnPred p xs
    else
      match splitOnPred p xs with
      | [] => [[x]]
      | h :: t => (x :: h) :: t

/-- Python `str.split(c)` on character lists. -/
def splitOnChar (c : Char) (l : List Char) : List (List Char) :=
  splitOnPred (fun x => x == c) l

/-- Python `s.split(c)` for a one-character separator string. -/
def pySplitChar (c : Char) (s : String) : List String :=
  (splitOnChar c s.data).map String.mk

/-- Python `s.split()` with no argument: split on runs of whitespace and drop
empty segments. -/
def pySplitWs (s : String) : List String :=
  ((splitOnPred isPyWs s.data).filter (fun x => !x.isEmpty)).map String.mk

/-- `self.feature_names` as assigned in `start`. The Python source writes nine
string literals inside one list with no commas between them, so implicit string
concatenation joins them into a single element; the `++` below mirrors that
adjacency concatenation. -/
def feature_names : List String :=
  ["mpg" ++ "cylinders" ++ "displacement" ++ "horsepower" ++ "weight" ++
    "acceleration" ++ "model year" ++ "origin" ++ "car name"]

/-- The Feature Schema as the spec words it: nine distinct column names mapping
positionally to eight numeric fields plus one label field. -/
def spec_feature_names : List String :=
  ["mpg", "cylinders", "displacement", "horsepower", "weight", "acceleration",
    "model year", "origin", "car name"]

/-- Effectful map over a list in the `Except` monad, stopping at the first
error: the behaviour of the Python `for` loop over the file's rows. -/
def exMapM {α β : Type} (f : α → Except String β) : List α → Except String (List β)
  | [] => .ok []
  | x :: xs =>
    match f x with
    | .error e => .error e
    | .ok y =>
      match exMapM f xs with
      | .error e => .error e
      | .ok ys => .ok (y :: ys)

/-- The body of the parsing loop in `process_dataset` for one line `row`:
`features, car_name = row.replace("\n", "").split("\t")` (a `ValueError` unless
the split yields exactly two parts), `features = features.split()`, strip double
then single quotes from `car_name`, and append it to the feature tokens. -/
def parseLine (row : String) : Except String (List String) :=
  match pySplitChar '\t' (removeChar '\n' row) with
  | [features, carName] =>
    .ok (pySplitWs features ++ [removeChar '\'' (removeChar '\"' carName)])
  | _ => .error "cannot unpack row into features and car name"

/-- `digits.foldl`: the value of a decimal digit string. -/
def digitsToNat (ds : List Char) : Nat :=
  ds.foldl (fun a c => 10 * a + (c.toNat - '0'.toNat)) 0

/-- Every character is a decimal digit. -/
def allDigits (cs : List Char) : Bool := cs.all Char.isDigit

/-- The exponent of a Python float literal: an optionally signed nonempty digit
string. -/
def parseExponent (cs : List Char) : Option Int :=
  match cs with
  | '+' :: t => if t ≠ [] ∧ allDigits t then some (Int.ofNat (digitsToNat t)) else none
  | '-' :: t => if t ≠ [] ∧ allDigits t then some (-(Int.ofNat (digitsToNat t))) else none
  | t => if t ≠ [] ∧ allDigits t then some (Int.ofNat (digitsToNat t)) else none

/-- The mantissa of a Python float literal: `digits`, `digits.digits`,
`digits.` or `.digits`. Returns the value of the digit string with the decimal
point removed, together with the number of fractional digits. -/
def parseMantissa (cs : List Char) : Option (Nat × Nat) :=
  match splitOnChar '.' cs with
  | [ip] => if ip ≠ [] ∧ allDigits ip then some (digitsToNat ip, 0) else none
  | [ip, fp] =>
    if (ip ≠ [] ∨ fp ≠ []) ∧ allDigits ip ∧ allDigits fp then
      some (digitsToNat (ip ++ fp), fp.length)
    else none
  | _ => none

/-- The exact value of a parsed Python float, kept as an unreduced fraction
`num / den` with `den` a power of ten. The pipeline does no arithmetic on parsed
floats and never compares floats parsed from distinct strings, so the fraction
is not normalised. -/
structure PyFloat where
  num : Int
  den : Nat
deriving DecidableEq

/-- Python `float(s)` on finite decimal literals: optional surrounding
whitespace, an optional sign, a decimal mantissa and an optional decimal
exponent. The non-finite forms `inf`/`infinity`/`nan` and digit-group
underscores are not part of the dataset's numeric grammar and are not
modelled. -/
def parseFloat (s : String) : Option PyFloat :=
  let cs := ((s.data.dropWhile isPyWs).reverse.dropWhile isPyWs).reverse
  let signBody : Int × List Char :=
    match cs with
    | '+' :: t => (1, t)
    | '-' :: t => (-1, t)
    | t => (1, t)
  match splitOnPred (fun c => c == 'e' || c == 'E') signBody.2 with
  | [m] =>
    match parseMantissa m with
    | some (n, fl) => some { num := signBody.1 * Int.ofNat n, den := 10 ^ fl }
    | none => none
  | [m, e] =>
    match parseMantissa m, parseExponent e with
    | some (n, fl), some ex =>
      if 0 ≤ ex then
        some { num := signBody.1 * Int.ofNat (n * 10 ^ ex.toNat), den := 10 ^ fl }
      else
        some { num := signBody.1 * Int.ofNat n, den := 10 ^ fl * 10 ^ (-ex).toNat }
    | _, _ => none
  | _ => none

/-- A cell of the pandas dataframe: a raw string before coercion, or a float
produced by `astype(float)`. -/
inductive Value where
  | str : String → Value
  | num : PyFloat → Value
deriving DecidableEq

/-- The dataframe built in `process_dataset`: named columns and row-major
cells. -/
structure Table where
  cols : List String
  rows : List (List Value)
deriving DecidableEq

/-- The width pandas infers for a list-of-lists input: the longest row. -/
def maxWidth (values : List (List String)) : Nat :=
  values.foldr (fun r acc => max r.length acc) 0

/-- `pd.DataFrame(values, columns=cols)` on a list of string rows: raises a
`ValueError` when the number of column names differs from the inferred width.
pandas additionally pads ragged rows shorter than the width with missing
values; no reachable call needs this (every parsed row is nonempty and the
width check against the one-name schema forces width one), so rows are stored
as given. -/
def dataFrameOf (values : List (List String)) (cols : List String) : Except String Table :=
  if values.isEmpty then .ok { cols := cols, rows := [] }
  else if cols.length = maxWidth values then
    .ok { cols := cols, rows := values.map (List.map Value.str) }
  else .error "shape of passed values does not match the columns"

/-- `float(v)` on one cell: an already-float value is unchanged; a string must
parse as a float, otherwise pandas raises `ValueError`. -/
def coerceValue : Value → Except String Value
  | .num q => .ok (.num q)
  | .str s =>
    match parseFloat s with
    | some q => .ok (.num q)
    | none => .error ("could not convert string to float: " ++ s)

/-- One cell of the coercion loop: `astype(float)` is applied to every column
whose name is not "car name"; the "car name" column is left untouched. -/
def coerceCell (c : String) (v : Value) : Except String Value :=
  if c = "car name" then .ok v else coerceValue v

/-- One row under the coercion loop of `process_dataset`: every cell is coerced
against its column name. The source iterates column-by-column; the per-cell
operations are independent, so iterating cell-by-cell within each row yields
the same table and fails exactly when some cell fails. -/
def coerceRow : List String → List Value → Except String (List Value)
  | [], _ => .ok []
  | _ :: _, [] => .ok []
  | c :: cs, v :: vs =>
    match coerceCell c v with
    | .error e => .error e
    | .ok v2 =>
      match coerceRow cs vs with
      | .error e => .error e
      | .ok vs2 => .ok (v2 :: vs2)

/-- The Type Coercer: the `astype(float)` loop of `process_dataset`. -/
def coerceTable (t : Table) : Except String Table :=
  match exMapM (coerceRow t.cols) t.rows with
  | .error e => .error e
  | .ok rs => .ok { cols := t.cols, rows := rs }

/-- `process_dataset` on the lines read from the raw file: parse each line,
build the dataframe against `feature_names`, then coerce the numeric
columns. -/
def process_dataset (lines : List String) : Except String Table :=
  match exMapM parseLine lines with
  | .error e => .error e
  | .ok values =>
    match dataFrameOf values feature_names with
    | .error e => .error e
    | .ok df => coerceTable df

instance {ε α : Type} [DecidableEq ε] [DecidableEq α] : DecidableEq (Except ε α) := fun x y =>
  match x, y with
  | .ok v, .ok w => if h : v = w then isTrue (by rw [h]) else isFalse (by simp [h])
  | .error v, .error w => if h : v = w then isTrue (by rw [h]) else isFalse (by simp [h])
  | .ok _, .error _ => isFalse (by simp)
  | .error _, .ok _ => isFalse (by simp)

theorem mk_data (l : List Char) : (String.mk l).data = l := rfl

theorem splitOnPred_ne_nil (p : Char → Bool) (l : List Char) : splitOnPred p l ≠ [] := by
  induction l with
  | nil => simp [splitOnPred]
  | cons x xs ih =>
    simp only [splitOnPred]
    split
    · simp
    · split <;> simp

theorem length_splitOnChar (c : Char) (l : List Char) :
    (splitOnChar c l).length = l.count c + 1 := by
  induction l with
  | nil => simp [splitOnChar, splitOnPred]
  | cons x xs ih =>
    by_cases hx : x = c
    · subst hx
      simp only [splitOnChar, splitOnPred, beq_self_eq_true, if_true, List.length_cons,
        List.count_cons_self]
      simp only [splitOnChar] at ih
      omega
    · have hbx : (x == c) = false := by simp [hx]
      cases hsp : splitOnPred (fun y => y == c) xs with
      | nil => exact absurd hsp (splitOnPred_ne_nil _ xs)
      | cons hd t =>
        simp only [splitOnChar] at ih
        rw [hsp] at ih
        simp only [List.length_cons] at ih
        simp [splitOnChar, splitOnPred, hbx, hsp, List.count_cons, hx]
        omega

theorem exMapM_ok_iff {α β : Type} (f : α → Except String β) (l : List α) (l2 : List β) :
    exMapM f l = .ok l2 ↔ List.Forall₂ (fun a b => f a = .ok b) l l2 := by
  induction l generalizing l2 with
  | nil => cases l2 <;> simp [exMapM]
  | cons x xs ih =>
    cases hfx : f x with
    | error e => simp [exMapM, hfx, List.forall₂_cons_left_iff]
    | ok y =>
      cases hrest : exMapM f xs with
      | error e =>
        simp only [exMapM, hfx, hrest, List.forall₂_cons_left_iff]
        constructor
        · intro h; cases h
        · rintro ⟨b, l2', hb, hf, rfl⟩
          rw [← ih] at hf
          rw [hrest] at hf
          cases hf
      | ok ys =>
        simp only [exMapM, hfx, hrest, List.forall₂_cons_left_iff, Except.ok.injEq]
        constructor
        · rintro rfl
          exact ⟨y, ys, rfl, (ih ys).mp hrest, rfl⟩
        · rintro ⟨b, l2', hb, hf, rfl⟩
          rw [← ih] at hf
          rw [hrest] at hf
          cases hf
          cases hb
          rfl

theorem exMapM_mem_ok {α β : Type} {f : α → Except String β} {l : List α} {l2 : List β}
    (h : exMapM f l = .ok l2) {a : α} (ha : a ∈ l) : ∃ b ∈ l2, f a = .ok b := by
  induction l generalizing l2 with
  | nil => cases ha
  | cons x xs ih =>
    cases hfx : f x with
    | error e => simp [exMapM, hfx] at h
    | ok y =>
      cases hrest : exMapM f xs with
      | error e => simp [exMapM, hfx, hrest] at h
      | ok ys =>
        simp only [exMapM, hfx, hrest, Except.ok.injEq] at h
        subst h
        rcases List.mem_cons.mp ha with rfl | ha
        · exact ⟨y, by simp, hfx⟩
        · obtain ⟨b, hb, hfb⟩ := ih hrest ha
          exact ⟨b, by simp [hb], hfb⟩

theorem exMapM_error_iff {α β : Type} (f : α → Except String β) (l : List α) :
    (∃ e, exMapM f l = .error e) ↔ ∃ a ∈ l, ∃ e, f a = .error e := by
  induction l with
  | nil => simp [exMapM]
  | cons x xs ih =>
    cases hfx : f x with
    | error e => simp [exMapM, hfx]
    | ok y =>
      cases hrest : exMapM f xs with
      | error e2 =>
        simp only [exMapM, hfx, hrest]
        constructor
        · intro _
          have : ∃ e, exMapM f xs = .error e := ⟨e2, hrest⟩
          obtain ⟨a, ha, he⟩ := ih.mp this
          exact ⟨a, by simp [ha], he⟩
        · intro _; exact ⟨e2, rfl⟩
      | ok ys =>
        simp only [exMapM, hfx, hrest]
        constructor
        · rintro ⟨e, he⟩; cases he
        · rintro ⟨a, ha, e, he⟩
          rcases List.mem_cons.mp ha with rfl | ha
          · rw [hfx] at he; cases he
          · have : ∃ e, exMapM f xs = .error e := ih.mpr ⟨a, ha, e, he⟩
            rw [hrest] at this
            obtain ⟨e', he'⟩ := this
            cases he'

theorem length_le_maxWidth {r : List String} {values : List (List String)}
    (h : r ∈ values) : r.length ≤ maxWidth values := by
  induction values with
  | nil => cases h
  | cons v vs ih =>
    simp only [maxWidth, List.foldr_cons]
    rcases List.mem_cons.mp h with rfl | h
    · exact Nat.le_max_left _ _
    · exact Nat.le_trans (ih h) (Nat.le_max_right _ _)

/-- C1: the feature-name list built in `start` is one implicitly concatenated
string, not the spec's nine distinct column names: a code bug the spec flags as
a likely defect. -/
theorem feature_names_single_malformed_entry :
    feature_names =
      ["mpgcylindersdisplacementhorsepowerweightaccelerationmodel yearorigincar name"] ∧
    feature_names.length = 1 ∧ spec_feature_names.length = 9 ∧
    feature_names ≠ spec_feature_names := by decide

/-- The spec's own two-line example input file. -/
def spec_example_lines : List String :=
  ["18.0   8   307.0      130.0      3504.      12.0   70  1\t\"chevrolet chevelle malibu\"",
    "15.0   8   350.0      165.0      3693.      11.5   70  1\t\"buick skylark 320\""]

/-- C2: on the spec's two-line example file every line parses to nine values,
yet `process_dataset` raises the pandas shape error instead of building a
2-row, 9-column table, because `feature_names` holds a single name. -/
theorem process_dataset_example_fails :
    (exMapM parseLine spec_example_lines).map (List.map List.length) = .ok [9, 9] ∧
    process_dataset spec_example_lines =
      .error "shape of passed values does not match the columns" := by decide

/-- C3: every successfully parsed row ends with the car-name value, and that
value contains no single-quote and no double-quote characters. -/
theorem parseLine_carName_quote_free (row : String) (vals : List String)
    (h : parseLine row = .ok vals) :
    ∃ name, vals.getLast? = some name ∧
      ∀ ch ∈ name.data, ch ≠ '\"' ∧ ch ≠ '\'' := by
  rcases hp : pySplitChar '\t' (removeChar '\n' row) with _ | ⟨features, _ | ⟨carName, _ | c⟩⟩
  · simp only [parseLine, hp] at h
    cases h
  · simp only [parseLine, hp] at h
    cases h
  · simp only [parseLine, hp, Except.ok.injEq] at h
    subst h
    refine ⟨removeChar '\'' (removeChar '\"' carName), List.getLast?_concat _, ?_⟩
    intro ch hch
    simp only [removeChar, mk_data, List.mem_filter, bne_iff_ne] at hch
    exact ⟨hch.1.2, hch.2⟩
  · simp only [parseLine, hp] at h
    cases h

/-- Witness for C3 at a line whose label uses single quotes. -/
theorem parseLine_carName_quote_free_witness :
    ∃ name,
      (["15.0", "8", "350.0", "165.0", "3693.", "11.5", "70", "1",
        "buick skylark 320"] : List String).getLast? = some name ∧
      ∀ ch ∈ name.data, ch ≠ '\"' ∧ ch ≠ '\'' :=
  parseLine_carName_quote_free
    "15.0   8   350.0      165.0      3693.      11.5   70  1\t'buick skylark 320'"
    _ (by decide)

/-- C9: if some line's feature segment splits into only seven whitespace
tokens, `process_dataset` fails with an error: when every line unpacks, the
seven-token line contributes a row of width eight, which cannot match the
single-entry schema, so the dataframe constructor raises its shape error. -/
theorem process_dataset_seven_token_error (lines : List String)
    (h : ∃ l ∈ lines, ∃ features rest,
      pySplitChar '\t' (removeChar '\n' l) = [features, rest] ∧
      (pySplitWs features).length = 7) :
    ∃ e, process_dataset lines = .error e := by
  obtain ⟨l, hl, features, rest, hsplit, hlen⟩ := h
  cases hm : exMapM parseLine lines with
  | error e => exact ⟨e, by simp [process_dataset, hm]⟩
  | ok values =>
    have hrow : parseLine l =
        .ok (pySplitWs features ++ [removeChar '\'' (removeChar '\"' rest)]) := by
      simp [parseLine, hsplit]
    obtain ⟨v, hv, hveq⟩ := exMapM_mem_ok hm hl
    rw [hrow] at hveq
    simp only [Except.ok.injEq] at hveq
    have hvlen : v.length = 8 := by
      rw [← hveq]
      simp [hlen]
    have hw : 8 ≤ maxWidth values := by
      have := length_le_maxWidth hv
      omega
    have hne : values.isEmpty = false := by
      cases values
      · cases hv
      · rfl
    have hnw : ¬ feature_names.length = maxWidth values := by
      have h1 : feature_names.length = 1 := rfl
      omega
    have hdf : dataFrameOf values feature_names =
        .error "shape of passed values does not match the columns" := by
      simp [dataFrameOf, hne, hnw]
    exact ⟨"shape of passed values does not match the columns",
      by simp [process_dataset, hm, hdf]⟩

/-- Witness for C9 at a one-line file whose feature segment has seven tokens. -/
theorem process_dataset_seven_token_error_witness :
    ∃ e, process_dataset ["18.0   8   307.0   130.0   3504.   12.0   70\t\"chevy\""] =
      .error e :=
  process_dataset_seven_token_error _
    ⟨"18.0   8   307.0   130.0   3504.   12.0   70\t\"chevy\"", by decide,
      "18.0   8   307.0   130.0   3504.   12.0   70", "\"chevy\"", by decide, by decide⟩

/-- C10: a line that does not contain exactly one tab after removing newline
characters fails to unpack into a features segment and a label segment, so
`parseLine` raises an error and contributes no row. -/
theorem parseLine_tab_error (row : String)
    (h : (removeChar '\n' row).data.count '\t' ≠ 1) :
    ∃ e, parseLine row = .error e := by
  have hlen : (pySplitChar '\t' (removeChar '\n' row)).length ≠ 2 := by
    simp [pySplitChar, length_splitOnChar]
    omega
  match hp : pySplitChar '\t' (removeChar '\n' row) with
  | [] => exact ⟨"cannot unpack row into features and car name", by simp [parseLine, hp]⟩
  | [a] => exact ⟨"cannot unpack row into features and car name", by simp [parseLine, hp]⟩
  | [a, b] => rw [hp] at hlen; simp at hlen
  | a :: b :: c :: l3 =>
    exact ⟨"cannot unpack row into features and car name", by simp [parseLine, hp]⟩

/-- Witness for C10 at a line holding two tabs. -/
theorem parseLine_tab_error_witness :
    ∃ e, parseLine "1.0\t2.0\tname" = .error e :=
  parseLine_tab_error "1.0\t2.0\tname" (by decide)

/-- Does `float(v)` succeed on this cell? -/
def coercible : Value → Bool
  | .str s => (parseFloat s).isSome
  | .num _ => true

/-- Is this cell a float? -/
def Value.isNum : Value → Bool
  | .num _ => true
  | .str _ => false

theorem coerceValue_error_iff (v : Value) :
    (∃ e, coerceValue v = .error e) ↔ coercible v = false := by
  cases v with
  | num q => simp [coerceValue, coercible]
  | str s =>
    cases hpf : parseFloat s with
    | none => simp [coerceValue, hpf, coercible]
    | some q => simp [coerceValue, hpf, coercible]

theorem coerceCell_error_iff (c : String) (v : Value) :
    (∃ e, coerceCell c v = .error e) ↔ c ≠ "car name" ∧ coercible v = false := by
  by_cases hc : c = "car name"
  · simp [coerceCell, hc]
  · simp [coerceCell, hc, coerceValue_error_iff]

theorem coerceCell_ok (c : String) (v v2 : Value) (h : coerceCell c v = .ok v2) :
    (c = "car name" → v2 = v) ∧
    (c ≠ "car name" → v2.isNum = true ∧ coerceValue v = .ok v2) := by
  by_cases hc : c = "car name"
  · simp only [coerceCell, if_pos hc, Except.ok.injEq] at h
    exact ⟨fun _ => h.symm, fun hn => absurd hc hn⟩
  · simp only [coerceCell, if_neg hc] at h
    refine ⟨fun he => absurd he hc, fun _ => ⟨?_, h⟩⟩
    cases v with
    | num q =>
      simp only [coerceValue, Except.ok.injEq] at h
      rw [← h]
      rfl
    | str s =>
      cases hpf : parseFloat s with
      | none => simp [coerceValue, hpf] at h
      | some q =>
        simp only [coerceValue, hpf, Except.ok.injEq] at h
        rw [← h]
        rfl

theorem coerceTable_error_iff (t : Table) :
    (∃ e, coerceTable t = .error e) ↔
      ∃ e, exMapM (coerceRow t.cols) t.rows = .error e := by
  cases hm : exMapM (coerceRow t.cols) t.rows <;> simp [coerceTable, hm]

theorem coerceTable_ok_rows {t t2 : Table} (h : coerceTable t = .ok t2) :
    t2.cols = t.cols ∧ exMapM (coerceRow t.cols) t.rows = .ok t2.rows := by
  cases hm : exMapM (coerceRow t.cols) t.rows with
  | error e => simp [coerceTable, hm] at h
  | ok rs =>
    simp only [coerceTable, hm, Except.ok.injEq] at h
    rw [← h]
    exact ⟨rfl, rfl⟩

theorem coerceRow_eq (cols : List String) (row : List Value) :
    coerceRow cols row =
      exMapM (fun cv => coerceCell cv.1 cv.2) (cols.zip row) := by
  induction cols generalizing row with
  | nil => cases row <;> rfl
  | cons c cs ih =>
    cases row with
    | nil => rfl
    | cons v vs =>
      have ih2 := (ih vs).symm
      rw [List.zip_cons_cons]
      cases hcell : coerceCell c v with
      | error e => simp [coerceRow, exMapM, hcell]
      | ok v2 =>
        cases hrest : coerceRow cs vs with
        | error e => simp [coerceRow, exMapM, hcell, ih2, hrest]
        | ok vs2 => simp [coerceRow, exMapM, hcell, ih2, hrest]

/-- C4: the coercion loop leaves the "car name" column untouched, converts
every cell of every other column to a float, and raises an error exactly when
some cell of a non-"car name" column does not parse as a float. -/
theorem coerce_loop_spec (t : Table) :
    ((∃ e, coerceTable t = .error e) ↔
      ∃ r ∈ t.rows, ∃ cv ∈ t.cols.zip r,
        cv.1 ≠ "car name" ∧ coercible cv.2 = false) ∧
    ∀ t2, coerceTable t = .ok t2 → t2.cols = t.cols ∧
      List.Forall₂ (fun r r2 =>
        List.Forall₂ (fun (cv : String × Value) v2 =>
          (cv.1 = "car name" → v2 = cv.2) ∧
          (cv.1 ≠ "car name" → v2.isNum = true ∧ coerceValue cv.2 = .ok v2))
          (t.cols.zip r) r2) t.rows t2.rows := by
  constructor
  · rw [coerceTable_error_iff, exMapM_error_iff]
    constructor
    · rintro ⟨r, hr, e, he⟩
      rw [coerceRow_eq] at he
      obtain ⟨cv, hcv, e2, he2⟩ := (exMapM_error_iff _ _).mp ⟨e, he⟩
      obtain ⟨hne, hco⟩ := (coerceCell_error_iff cv.1 cv.2).mp ⟨e2, he2⟩
      exact ⟨r, hr, cv, hcv, hne, hco⟩
    · rintro ⟨r, hr, cv, hcv, hne, hco⟩
      obtain ⟨e2, he2⟩ := (coerceCell_error_iff cv.1 cv.2).mpr ⟨hne, hco⟩
      obtain ⟨e, he⟩ :=
        (exMapM_error_iff (fun cv => coerceCell cv.1 cv.2) (t.cols.zip r)).mpr
          ⟨cv, hcv, e2, he2⟩
      refine ⟨r, hr, e, ?_⟩
      rw [coerceRow_eq]
      exact he
  · intro t2 h
    obtain ⟨hcols, hrows⟩ := coerceTable_ok_rows h
    refine ⟨hcols, ?_⟩
    have hf := (exMapM_ok_iff _ _ _).mp hrows
    refine hf.imp ?_
    intro r r2 hrow
    rw [coerceRow_eq] at hrow
    have hcells := (exMapM_ok_iff _ _ _).mp hrow
    exact hcells.imp (fun cv v2 hc => coerceCell_ok cv.1 cv.2 v2 hc)

/-- A one-row table whose numeric column holds a non-numeric token. -/
def exBadTable : Table :=
  { cols := ["mpg", "car name"], rows := [[Value.str "abc", Value.str "chevy"]] }

/-- A one-row table of raw strings that coerces successfully. -/
def exRawTable : Table :=
  { cols := ["mpg", "car name"], rows := [[Value.str "18.0", Value.str "chevy"]] }

/-- `exRawTable` after coercion: 18.0 is the fraction 180/10. -/
def exCoercedTable : Table :=
  { cols := ["mpg", "car name"], rows := [[Value.num ⟨180, 10⟩, Value.str "chevy"]] }

/-- Witness for C4: coercion fails on a table with a bad numeric cell, and on a
good table it keeps the column names. -/
theorem coerce_loop_spec_witness :
    (∃ e, coerceTable exBadTable = .error e) ∧ exCoercedTable.cols = exRawTable.cols :=
  ⟨(coerce_loop_spec exBadTable).1.mpr
      ⟨[Value.str "abc", Value.str "chevy"], by simp [exBadTable],
        ("mpg", Value.str "abc"), by decide, by decide, by decide⟩,
    ((coerce_loop_spec exRawTable).2 exCoercedTable (by decide)).1⟩

theorem coerceRow_nil (r : List Value) : coerceRow [] r = .ok [] := rfl

theorem coerceRow_nil_right (c : String) (cs : List String) :
    coerceRow (c :: cs) [] = .ok [] := rfl

theorem coerceRow_cons (c : String) (cs : List String) (v : Value) (vs : List Value) :
    coerceRow (c :: cs) (v :: vs) =
      match coerceCell c v with
      | .error e => .error e
      | .ok v2 =>
        match coerceRow cs vs with
        | .error e => .error e
        | .ok vs2 => .ok (v2 :: vs2) := rfl

theorem coerceRow_idem (cols : List String) (r r2 : List Value)
    (h : coerceRow cols r = .ok r2) : coerceRow cols r2 = .ok r2 := by
  induction cols generalizing r r2 with
  | nil =>
    rw [coerceRow_nil] at h
    simp only [Except.ok.injEq] at h
    subst h
    exact coerceRow_nil []
  | cons c cs ih =>
    cases r with
    | nil =>
      rw [coerceRow_nil_right] at h
      simp only [Except.ok.injEq] at h
      subst h
      exact coerceRow_nil_right c cs
    | cons v vs =>
      rw [coerceRow_cons] at h
      cases hcell : coerceCell c v with
      | error e =>
        simp only [hcell] at h
        exact Except.noConfusion h
      | ok v2 =>
        simp only [hcell] at h
        cases hrest : coerceRow cs vs with
        | error e =>
          simp only [hrest] at h
          exact Except.noConfusion h
        | ok vs2 =>
          simp only [hrest, Except.ok.injEq] at h
          subst h
          have hcell2 : coerceCell c v2 = .ok v2 := by
            by_cases hc : c = "car name"
            · simp [coerceCell, hc]
            · simp only [coerceCell, if_neg hc] at hcell ⊢
              cases v with
              | num q =>
                simp only [coerceValue, Except.ok.injEq] at hcell
                rw [← hcell]
                simp [coerceValue]
              | str s =>
                cases hpf : parseFloat s with
                | none => simp [coerceValue, hpf] at hcell
                | some q =>
                  simp only [coerceValue, hpf, Except.ok.injEq] at hcell
                  rw [← hcell]
                  simp [coerceValue]
          have hrest2 := ih vs vs2 hrest
          rw [coerceRow_cons]
          simp [hcell2, hrest2]

theorem exMapM_coerceRow_idem (cols : List String) (rows rows2 : List (List Value))
    (h : List.Forall₂ (fun r r2 => coerceRow cols r = .ok r2) rows rows2) :
    exMapM (coerceRow cols) rows2 = .ok rows2 := by
  induction h with
  | nil => simp [exMapM]
  | cons hR hF ih =>
    have := coerceRow_idem _ _ _ hR
    simp [exMapM, this, ih]

/-- C5: the Type Coercer is idempotent: when coercion succeeds, running it again
on its output returns that output unchanged (casting a float is a no-op). -/
theorem coerceTable_idempotent (t t2 : Table) (h : coerceTable t = .ok t2) :
    coerceTable t2 = .ok t2 := by
  obtain ⟨hcols, hrows⟩ := coerceTable_ok_rows h
  have hf := (exMapM_ok_iff _ _ _).mp hrows
  have hm2 : exMapM (coerceRow t2.cols) t2.rows = .ok t2.rows := by
    rw [hcols]
    exact exMapM_coerceRow_idem t.cols t.rows t2.rows hf
  cases t2 with
  | mk cols2 rows2 => simp [coerceTable] at hm2 ⊢; simp [hm2]

/-- Witness for C5 on a concrete one-row table. -/
theorem coerceTable_idempotent_witness :
    coerceTable exCoercedTable = .ok exCoercedTable :=
  coerceTable_idempotent exRawTable exCoercedTable (by decide)

/-- A calendar date as `datetime.now()` supplies it: the fields `save_dataset`
formats. -/
structure Timestamp where
  year : Nat
  month : Nat
  day : Nat
deriving DecidableEq

/-- `os.path.join(a, b)` for the nonempty relative components this flow uses:
joins with a single slash. -/
def os_path_join (a b : String) : String := a ++ "/" ++ b

/-- `self.data_directory` as assigned in `start`. -/
def data_directory : String := "auto-mpg/data"

/-- Little-endian decimal digits of `n`; `fuel ≥ n` suffices for the recursion
to finish. -/
def natDigitsRevAux : Nat → Nat → List Nat
  | 0, _ => []
  | fuel + 1, n => if n = 0 then [] else n % 10 :: natDigitsRevAux fuel (n / 10)

/-- The decimal numeral of a natural number. -/
def natStr (n : Nat) : String :=
  if n = 0 then "0" else String.mk (((natDigitsRevAux n n).map Nat.digitChar).reverse)

/-- Pad `s` on the left with `c` to width `w`. -/
def padLeft (c : Char) (w : Nat) (s : String) : String :=
  String.mk (List.replicate (w - s.data.length) c ++ s.data)

/-- `timestamp.strftime("%Y")`: the year as a decimal number (glibc applies no
zero padding to `%Y`, so four digits appear exactly for four-digit years). -/
def fmtY (y : Nat) : String := natStr y

/-- `timestamp.strftime("%m")`: the month zero-padded to two digits. -/
def fmtM (m : Nat) : String := padLeft '0' 2 (natStr m)

/-- `timestamp.strftime("%d")`: the day zero-padded to two digits. -/
def fmtD (d : Nat) : String := padLeft '0' 2 (natStr d)

/-- The partition directory `save_dataset` builds:
`os.path.join(self.data_directory, "processed", yearkey, monthkey, daykey)`
with `yearkey = "yearkey={}".format(timestamp.strftime("%Y"))` and likewise for
month and day. -/
def directory_to_save_processed_data_to (t : Timestamp) : String :=
  os_path_join (os_path_join (os_path_join (os_path_join data_directory "processed")
    ("yearkey=" ++ fmtY t.year)) ("monthkey=" ++ fmtM t.month)) ("daykey=" ++ fmtD t.day)

/-- The filesystem effect of `save_dataset`: `os.makedirs` on the partition
directory when absent, then a single `to_parquet` write of
`data.parquet.gzip` inside it. -/
structure SaveResult where
  dirCreated : String
  filesWritten : List String
deriving DecidableEq

/-- `save_dataset` at the run timestamp `t`. -/
def save_dataset (t : Timestamp) : SaveResult :=
  { dirCreated := directory_to_save_processed_data_to t,
    filesWritten :=
      [os_path_join (directory_to_save_processed_data_to t) "data.parquet.gzip"] }

/-- The value of a little-endian digit list. -/
def digitsRevVal : List Nat → Nat
  | [] => 0
  | d :: ds => d + 10 * digitsRevVal ds

theorem string_data_inj {s t : String} (h : s.data = t.data) : s = t := by
  cases s
  cases t
  exact congrArg String.mk h

theorem digitsRevVal_natDigitsRevAux (fuel n : Nat) (h : n ≤ fuel) :
    digitsRevVal (natDigitsRevAux fuel n) = n := by
  induction fuel generalizing n with
  | zero =>
    have hn : n = 0 := by omega
    subst hn
    rfl
  | succ fuel ih =>
    by_cases hn : n = 0
    · subst hn
      rfl
    · simp only [natDigitsRevAux, if_neg hn, digitsRevVal]
      have hdiv : n / 10 ≤ fuel := by
        have : n / 10 < n := Nat.div_lt_self (Nat.pos_of_ne_zero hn) (by omega)
        omega
      rw [ih _ hdiv]
      omega

theorem natDigitsRevAux_lt_ten (fuel n : Nat) :
    ∀ d ∈ natDigitsRevAux fuel n, d < 10 := by
  induction fuel generalizing n with
  | zero => simp [natDigitsRevAux]
  | succ fuel ih =>
    by_cases hn : n = 0
    · subst hn
      simp [natDigitsRevAux]
    · simp only [natDigitsRevAux, if_neg hn]
      intro d hd
      rcases List.mem_cons.mp hd with rfl | hd
      · exact Nat.mod_lt _ (by omega)
      · exact ih _ d hd

theorem map_digitChar_inj (l1 l2 : List Nat) (h1 : ∀ d ∈ l1, d < 10)
    (h2 : ∀ d ∈ l2, d < 10) (h : l1.map Nat.digitChar = l2.map Nat.digitChar) :
    l1 = l2 := by
  have hchar : ∀ a < 10, ∀ b < 10, Nat.digitChar a = Nat.digitChar b → a = b := by decide
  induction l1 generalizing l2 with
  | nil =>
    cases l2 with
    | nil => rfl
    | cons b t => simp at h
  | cons a t ih =>
    cases l2 with
    | nil => simp at h
    | cons b t2 =>
      simp only [List.map_cons, List.cons.injEq] at h
      have hab := hchar a (h1 a (by simp)) b (h2 b (by simp)) h.1
      have ht := ih t2 (fun d hd => h1 d (List.mem_cons_of_mem _ hd))
        (fun d hd => h2 d (List.mem_cons_of_mem _ hd)) h.2
      rw [hab, ht]

theorem natStr_inj_pos (m n : Nat) (hm : 0 < m) (hn : 0 < n)
    (h : natStr m = natStr n) : m = n := by
  have hm0 : m ≠ 0 := by omega
  have hn0 : n ≠ 0 := by omega
  have hdata := congrArg String.data h
  simp only [natStr, if_neg hm0, if_neg hn0, mk_data] at hdata
  have hrev := List.reverse_injective hdata
  have hmap := map_digitChar_inj _ _ (natDigitsRevAux_lt_ten m m)
    (natDigitsRevAux_lt_ten n n) hrev
  have hv1 := digitsRevVal_natDigitsRevAux m m (Nat.le_refl m)
  have hv2 := digitsRevVal_natDigitsRevAux n n (Nat.le_refl n)
  rw [← hv1, ← hv2, hmap]

theorem fmtM_length (m : Nat) (h : m < 100) : (fmtM m).data.length = 2 := by
  have H : ∀ m2 < 100, (fmtM m2).data.length = 2 := by decide
  exact H m h

theorem fmtM_inj_le (a b : Nat) (ha : a ≤ 31) (hb : b ≤ 31) (h : fmtM a = fmtM b) :
    a = b := by
  have H : ∀ a2 < 32, ∀ b2 < 32, fmtM a2 = fmtM b2 → a2 = b2 := by decide
  exact H a (by omega) b (by omega) h

theorem fmtD_eq_fmtM (d : Nat) : fmtD d = fmtM d := rfl

theorem directory_data (t : Timestamp) :
    (directory_to_save_processed_data_to t).data =
      "auto-mpg/data/processed/yearkey=".data ++ ((fmtY t.year).data ++
        ("/monthkey=".data ++ ((fmtM t.month).data ++
          ("/daykey=".data ++ (fmtD t.day).data)))) := by
  simp only [directory_to_save_processed_data_to, os_path_join, data_directory,
    String.data_append, List.append_assoc]
  rfl

/-- C6: the partition path is a deterministic function of the timestamp, and
for valid calendar fields two timestamps yield the same partition directory
exactly when they denote the same calendar day — so distinct days yield
distinct paths. -/
theorem partition_path_day_det (t1 t2 : Timestamp)
    (hy1 : 1 ≤ t1.year) (hy2 : 1 ≤ t2.year)
    (hm1 : t1.month ≤ 12) (hm2 : t2.month ≤ 12)
    (hd1 : t1.day ≤ 31) (hd2 : t2.day ≤ 31) :
    directory_to_save_processed_data_to t1 = directory_to_save_processed_data_to t2 ↔
      (t1.year = t2.year ∧ t1.month = t2.month ∧ t1.day = t2.day) := by
  constructor
  · intro h
    have hdata := congrArg String.data h
    rw [directory_data, directory_data] at hdata
    have h1 := List.append_cancel_left hdata
    have hlM1 : (fmtM t1.month).data.length = 2 := fmtM_length _ (by omega)
    have hlM2 : (fmtM t2.month).data.length = 2 := fmtM_length _ (by omega)
    have hlD1 : (fmtD t1.day).data.length = 2 := by
      rw [fmtD_eq_fmtM]
      exact fmtM_length _ (by omega)
    have hlD2 : (fmtD t2.day).data.length = 2 := by
      rw [fmtD_eq_fmtM]
      exact fmtM_length _ (by omega)
    have hR : ("/monthkey=".data ++ ((fmtM t1.month).data ++
          ("/daykey=".data ++ (fmtD t1.day).data))).length =
        ("/monthkey=".data ++ ((fmtM t2.month).data ++
          ("/daykey=".data ++ (fmtD t2.day).data))).length := by
      simp only [List.length_append, hlM1, hlM2, hlD1, hlD2]
    obtain ⟨hY, hrest⟩ := List.append_inj' h1 hR
    have hyear : t1.year = t2.year :=
      natStr_inj_pos _ _ (by omega) (by omega) (string_data_inj hY)
    have hrest2 := List.append_cancel_left hrest
    obtain ⟨hM, hrest3⟩ := List.append_inj hrest2 (hlM1.trans hlM2.symm)
    have hmonth : t1.month = t2.month :=
      fmtM_inj_le _ _ (by omega) (by omega) (string_data_inj hM)
    have hrest4 := List.append_cancel_left hrest3
    have hday : t1.day = t2.day := by
      apply fmtM_inj_le _ _ hd1 hd2
      apply string_data_inj
      rw [← fmtD_eq_fmtM, ← fmtD_eq_fmtM]
      exact hrest4
    exact ⟨hyear, hmonth, hday⟩
  · rintro ⟨h1, h2, h3⟩
    have : t1 = t2 := by
      cases t1
      cases t2
      simp_all
    rw [this]

/-- Witness for C6: May 7 and May 8 of 2021 give distinct partition
directories. -/
theorem partition_path_day_det_witness :
    directory_to_save_processed_data_to ⟨2021, 5, 7⟩ ≠
      directory_to_save_processed_data_to ⟨2021, 5, 8⟩ := by
  intro h
  exact absurd
    ((partition_path_day_det ⟨2021, 5, 7⟩ ⟨2021, 5, 8⟩ (by decide) (by decide)
      (by decide) (by decide) (by decide) (by decide)).mp h)
    (by decide)

theorem natDigitsRevAux_length_ge (k : Nat) :
    ∀ fuel n : Nat, n ≤ fuel → 10 ^ k ≤ n → k + 1 ≤ (natDigitsRevAux fuel n).length := by
  induction k with
  | zero =>
    intro fuel n hf h1
    have h1b : 1 ≤ n := by simpa using h1
    have hn : n ≠ 0 := by omega
    cases fuel with
    | zero => omega
    | succ fuel =>
      simp only [natDigitsRevAux, if_neg hn, List.length_cons]
      omega
  | succ k ih =>
    intro fuel n hf h1
    have h10 : 1 ≤ 10 ^ (k + 1) := Nat.one_le_pow _ _ (by omega)
    have hn : n ≠ 0 := by omega
    cases fuel with
    | zero => omega
    | succ fuel =>
      simp only [natDigitsRevAux, if_neg hn, List.length_cons]
      have hdiv10 : 10 ^ k ≤ n / 10 := by
        rw [Nat.le_div_iff_mul_le (by omega)]
        calc 10 ^ k * 10 = 10 ^ (k + 1) := (pow_succ 10 k).symm
        _ ≤ n := h1
      have hfl : n / 10 ≤ fuel := by
        have : n / 10 < n := Nat.div_lt_self (by omega) (by omega)
        omega
      have := ih fuel (n / 10) hfl hdiv10
      omega

theorem natStr_length_ge_four (y : Nat) (hy : 1000 ≤ y) :
    4 ≤ (natStr y).data.length := by
  have hne : y ≠ 0 := by omega
  simp only [natStr, if_neg hne, mk_data, List.length_reverse, List.length_map]
  have h3 : (10 : Nat) ^ 3 ≤ y := by
    have : (10 : Nat) ^ 3 = 1000 := by norm_num
    omega
  exact natDigitsRevAux_length_ge 3 y y (Nat.le_refl y) h3

theorem padLeft_eq_of_le (c : Char) (w : Nat) (s : String) (h : w ≤ s.data.length) :
    padLeft c w s = s := by
  cases s with
  | mk l =>
    have hz : w - l.length = 0 := by
      simp only [mk_data] at h
      omega
    simp [padLeft, hz]

/-- The Writer's output path as the spec words it: the base directory,
`processed`, then yearkey, monthkey and daykey with the date zero-padded to
4, 2 and 2 digits, and the file `data.parquet.gzip`. -/
def spec_partition_file (t : Timestamp) : String :=
  data_directory ++ "/processed/yearkey=" ++ padLeft '0' 4 (natStr t.year) ++
    "/monthkey=" ++ padLeft '0' 2 (natStr t.month) ++
    "/daykey=" ++ padLeft '0' 2 (natStr t.day) ++ "/data.parquet.gzip"

/-- C7: for every run date (years of a pipeline run have four digits),
`save_dataset` creates the partition directory when absent and writes exactly
one file, at the spec's zero-padded partition path. -/
theorem save_dataset_writes_one_file_at_spec_path (t : Timestamp)
    (hy : 1000 ≤ t.year) :
    (save_dataset t).filesWritten = [spec_partition_file t] ∧
    (save_dataset t).filesWritten.length = 1 ∧
    (save_dataset t).dirCreated = directory_to_save_processed_data_to t := by
  have hpad : padLeft '0' 4 (natStr t.year) = natStr t.year :=
    padLeft_eq_of_le _ _ _ (natStr_length_ge_four t.year hy)
  refine ⟨?_, rfl, rfl⟩
  simp only [save_dataset, List.cons.injEq, and_true]
  apply string_data_inj
  simp only [os_path_join, String.data_append, directory_data, spec_partition_file,
    data_directory, hpad, fmtY, fmtM, fmtD, List.append_assoc]
  rfl

/-- Witness for C7 on a concrete run date. -/
theorem save_dataset_writes_one_file_at_spec_path_witness :
    (save_dataset ⟨2021, 5, 7⟩).filesWritten =
      ["auto-mpg/data/processed/yearkey=2021/monthkey=05/daykey=07/data.parquet.gzip"] := by
  rw [(save_dataset_writes_one_file_at_spec_path ⟨2021, 5, 7⟩ (by decide)).1]
  decide

/-- `self.base_url` as assigned in `start`. -/
def base_url : String :=
  "https://archive.ics.uci.edu/ml/machine-learning-databases/auto-mpg"

/-- `self.data_file` as assigned in `start`. -/
def data_file : String := "auto-mpg.data"

/-- Join path components with slashes: the shape of the relative paths this
flow builds. -/
def joinSlash : List String → String
  | [] => ""
  | h :: t => t.foldl (fun acc x => acc ++ "/" ++ x) h

/-- The observable outcome of `download_file`: the chosen local filename, the
directories `Path(directory).mkdir(parents=True, exist_ok=True)` brings into
existence — every slash-separated prefix of `os.path.split(local_filename)[0]`
— plus the path the body is streamed to and the value returned. -/
structure DownloadResult where
  local_filename : String
  dirs_created : List String
  wrote : String
  returned : String
deriving DecidableEq

/-- `download_file(url, custom_filename)`: take the override when given,
otherwise `url.split("/")[-1]`; create the destination's parent directory tree;
stream the response body to the destination; return the filename. -/
def download_file (url : String) (custom_filename : Option String) : DownloadResult :=
  let local_filename :=
    match custom_filename with
    | some c => c
    | none => (pySplitChar '/' url).getLastD ""
  let comps := pySplitChar '/' local_filename
  { local_filename := local_filename,
    dirs_created :=
      (List.range comps.dropLast.length).map
        (fun i => joinSlash (comps.dropLast.take (i + 1))),
    wrote := local_filename,
    returned := local_filename }

/-- The substring of `s` after its last slash (all of `s` when it has none), as
the spec words the derived filename. -/
def afterLastSlash (s : String) : String :=
  String.mk ((s.data.reverse.takeWhile (fun x => x != '/')).reverse)

theorem takeWhile_of_all (p : Char → Bool) (l : List Char) (h : l.all p = true) :
    l.takeWhile p = l := by
  induction l with
  | nil => rfl
  | cons x xs ih =>
    simp only [List.all_cons, Bool.and_eq_true] at h
    simp [List.takeWhile_cons, h.1, ih h.2]

theorem takeWhile_append_neg (p : Char → Bool) (a : List Char) (c : Char)
    (hc : p c = false) : (a ++ [c]).takeWhile p = a.takeWhile p := by
  induction a with
  | nil => simp [List.takeWhile_cons, hc]
  | cons x xs ih =>
    by_cases hx : p x
    · simp [List.takeWhile_cons, hx, ih]
    · simp [List.takeWhile_cons, hx]

theorem takeWhile_append_pos (p : Char → Bool) (a : List Char) (c : Char)
    (hc : p c = true) :
    (a ++ [c]).takeWhile p = if a.all p then a ++ [c] else a.takeWhile p := by
  induction a with
  | nil => simp [List.takeWhile_cons, hc]
  | cons x xs ih =>
    by_cases hx : p x
    · by_cases hall : xs.all p
      · simp [List.takeWhile_cons, hx, hall, List.all_cons, ih]
      · simp [List.takeWhile_cons, hx, hall, List.all_cons, ih]
    · simp [List.takeWhile_cons, hx, List.all_cons]

theorem splitOnChar_getLastD (c : Char) (l : List Char) :
    (splitOnChar c l).getLastD [] =
      (l.reverse.takeWhile (fun x => x != c)).reverse := by
  induction l with
  | nil =>
    simp [splitOnChar, splitOnPred, List.getLastD_cons, List.getLastD_nil]
  | cons x xs ih =>
    by_cases hx : x = c
    · subst hx
      cases hsp : splitOnPred (fun y => y == x) xs with
      | nil => exact absurd hsp (splitOnPred_ne_nil _ xs)
      | cons hd t =>
        have hL : splitOnChar x (x :: xs) = [] :: hd :: t := by
          simp [splitOnChar, splitOnPred, hsp]
        have hsp2 : splitOnChar x xs = hd :: t := by
          simpa [splitOnChar] using hsp
        rw [hL, List.getLastD_cons, ← hsp2, ih, List.reverse_cons,
          takeWhile_append_neg (fun y => y != x) xs.reverse x (by simp)]
    · have hbx : (x == c) = false := by simp [hx]
      have hpx : ((fun y => y != c) x) = true := by simp [hx]
      cases hsp : splitOnPred (fun y => y == c) xs with
      | nil => exact absurd hsp (splitOnPred_ne_nil _ xs)
      | cons hd t =>
        have hsp2 : splitOnChar c xs = hd :: t := by
          simpa [splitOnChar] using hsp
        have hL : splitOnChar c (x :: xs) = (x :: hd) :: t := by
          simp [splitOnChar, splitOnPred, hbx, hsp]
        rw [hL, List.reverse_cons,
          takeWhile_append_pos (fun y => y != c) xs.reverse x hpx]
        cases t with
        | nil =>
          have hcount : xs.count c = 0 := by
            have hl := length_splitOnChar c xs
            rw [hsp2] at hl
            simp at hl
            omega
          have hnomem : c ∉ xs := List.count_eq_zero.mp hcount
          have hall : xs.reverse.all (fun y => y != c) = true := by
            simp only [List.all_reverse, List.all_eq_true, bne_iff_ne]
            intro a ha heq
            exact hnomem (heq ▸ ha)
          have hhd : hd = xs := by
            rw [hsp2] at ih
            rw [takeWhile_of_all _ _ hall, List.reverse_reverse] at ih
            simpa [List.getLastD_cons, List.getLastD_nil] using ih
          rw [if_pos hall]
          simp [List.getLastD_cons, List.getLastD_nil, hhd]
        | cons t0 ts =>
          have hcpos : 0 < xs.count c := by
            have hl := length_splitOnChar c xs
            rw [hsp2] at hl
            simp at hl
            omega
          have hmem : c ∈ xs := List.count_pos_iff.mp hcpos
          have hallf : xs.reverse.all (fun y => y != c) = false := by
            rw [List.all_reverse]
            apply List.all_eq_false.mpr
            exact ⟨c, hmem, by simp⟩
          rw [if_neg (by simp [hallf])]
          rw [hsp2] at ih
          rw [← ih]
          simp only [List.getLastD_cons]

theorem getLastD_irrel {α : Type} (l : List α) (h : l ≠ []) (d1 d2 : α) :
    l.getLastD d1 = l.getLastD d2 := by
  cases l with
  | nil => exact absurd rfl h
  | cons a t => rw [List.getLastD_cons, List.getLastD_cons]

theorem getLastD_map_mk (l : List (List Char)) (h : l ≠ []) :
    (l.map String.mk).getLastD "" = String.mk (l.getLastD []) := by
  induction l with
  | nil => exact absurd rfl h
  | cons a t ih =>
    cases t with
    | nil =>
      simp only [List.map_cons, List.map_nil, List.getLastD_cons, List.getLastD_nil]
    | cons b ts =>
      rw [List.map_cons, List.getLastD_cons, List.getLastD_cons]
      rw [getLastD_irrel (List.map String.mk (b :: ts)) (by simp) (String.mk a) ""]
      rw [ih (by simp)]
      congr 1

theorem mem_prefix_dirs (comps : List String) (k : Nat) (hk1 : 1 ≤ k)
    (hk2 : k < comps.length) :
    joinSlash (comps.take k) ∈
      (List.range comps.dropLast.length).map
        (fun i => joinSlash (comps.dropLast.take (i + 1))) := by
  apply List.mem_map.mpr
  refine ⟨k - 1, List.mem_range.mpr ?_, ?_⟩
  · rw [List.length_dropLast]
    omega
  · have hk : k - 1 + 1 = k := by omega
    rw [hk, List.dropLast_eq_take, List.take_take]
    rw [Nat.min_eq_left (by omega)]

/-- C8: with no override `download_file` derives the local filename as the
substring of the URL after its last slash; in all cases it creates every
missing parent directory of the destination before writing, and the returned
value is exactly the path written. -/
theorem download_file_spec (url : String) (custom_filename : Option String) :
    (custom_filename = none →
      (download_file url custom_filename).local_filename = afterLastSlash url) ∧
    (download_file url custom_filename).returned =
      (download_file url custom_filename).wrote ∧
    ∀ k, 1 ≤ k →
      k < (pySplitChar '/' (download_file url custom_filename).wrote).length →
      joinSlash ((pySplitChar '/' (download_file url custom_filename).wrote).take k) ∈
        (download_file url custom_filename).dirs_created := by
  refine ⟨?_, rfl, ?_⟩
  · rintro rfl
    show (pySplitChar '/' url).getLastD "" = afterLastSlash url
    rw [show pySplitChar '/' url = (splitOnChar '/' url.data).map String.mk from rfl]
    have hne : splitOnChar '/' url.data ≠ [] := by
      simp only [splitOnChar]
      exact splitOnPred_ne_nil _ _
    rw [getLastD_map_mk _ hne, splitOnChar_getLastD]
    rfl
  · intro k hk1 hk2
    exact mem_prefix_dirs (pySplitChar '/' (download_file url custom_filename).wrote)
      k hk1 hk2

/-- Witness for C8 at the flow's own URL and destination: the derived filename
is the URL's last segment, and `auto-mpg/data` is among the parent directories
created for the destination `auto-mpg/data/raw/auto-mpg.data`. -/
theorem download_file_spec_witness :
    (download_file (base_url ++ "/" ++ data_file) none).local_filename =
      "auto-mpg.data" ∧
    joinSlash ((pySplitChar '/' (download_file (base_url ++ "/" ++ data_file)
        (some "auto-mpg/data/raw/auto-mpg.data")).wrote).take 2) ∈
      (download_file (base_url ++ "/" ++ data_file)
        (some "auto-mpg/data/raw/auto-mpg.data")).dirs_created := by
  constructor
  · rw [(download_file_spec (base_url ++ "/" ++ data_file) none).1 rfl]
    decide
  · exact (download_file_spec (base_url ++ "/" ++ data_file)
      (some "auto-mpg/data/raw/auto-mpg.data")).2.2 2 (by decide) (by decide)

end IngestData
